import Mathlib

/-!
Verification of pdk/csvjoin (src/csvjoin.go).

The Go program joins several CSV sources on the columns common to all of
them.  This file shallowly embeds the join engine: record construction and
key derivation (`recordOf`, `keyOf`), per-source grouping (`DataCollection`,
`ReadData`), the key universe (`ReadAllInputSources`), header reconciliation
(`IdentifyJoinColumns`, `IdentifyOutputColumns`), cross-product expansion
(`recurse`) and row projection (`prt`, `WriteCSVs`).  CSV parsing and the
process boundary are external collaborators; parsed rows are taken as
`List String` and reader results as `ReadResult` streams.
-/

namespace Csvjoin

/-- Go type `Record` (a map from column name to cell value).  Embedded as the
association list built by `recordOf`; a Go map read is `List.lookup`. -/
abbrev Record := List (String × String)

/-- The `recordOf` closure in Go `ReadData`: writes `r[headers[i]] = row[i]`
for each position of the row.  With duplicate header names the later Go map
write wins, hence the `reverse` so that `List.lookup` finds the last write. -/
def recordOf (headers row : List String) : Record :=
  (headers.zip row).reverse

/-- Go map read `rec[c]`: a missing key yields the zero value `""`. -/
def lookupD (rec : Record) (c : String) : String :=
  (rec.lookup c).getD ""

/-- The `keyOf` closure in Go `ReadData`: concatenates the record's values of
the join columns, in join-column order, separated by `"++"` (the
strings.Builder loop writes the separator before every element but the
first, which is exactly `String.intercalate`). -/
def keyOf (joinColumns : List String) (rec : Record) : String :=
  String.intercalate "++" (joinColumns.map (fun c => lookupD rec c))

/-- Go struct `DataCollection`: a map from join key to the slice of records
added under that key.  Embedded as an association list; the entry order is
never observed by the program (keys are deduplicated and sorted before
use). -/
structure DataCollection where
  data : List (String × List Record)
deriving DecidableEq

/-- Update of the underlying association list: append to the existing entry
for the key, or create a new entry. -/
def addEntry : List (String × List Record) → String → Record → List (String × List Record)
  | [], key, rec => [(key, [rec])]
  | (k, rs) :: rest, key, rec =>
    if k = key then (k, rs ++ [rec]) :: rest else (k, rs) :: addEntry rest key rec

/-- Go `(dc *DataCollection).Add`: `dc.data[key] = append(dc.data[key], rec)`. -/
def DataCollection.add (dc : DataCollection) (key : String) (rec : Record) : DataCollection :=
  ⟨addEntry dc.data key rec⟩

/-- Go map read `dc.data[key]`: a missing key yields the nil slice. -/
def DataCollection.get (dc : DataCollection) (key : String) : List Record :=
  (dc.data.lookup key).getD []

/-- Go `NewDataCollection`. -/
def NewDataCollection : DataCollection := ⟨[]⟩

/-- Go `ReadData`, error-free phase: the loop over the already parsed data
rows, building each record and filing it under its derived key. -/
def ReadData (headers joinColumns : List String) (rows : List (List String)) : DataCollection :=
  rows.foldl (fun dc row =>
    dc.add (keyOf joinColumns (recordOf headers row)) (recordOf headers row)) NewDataCollection

/-- Lexicographic comparison of char lists by codepoint.  On UTF-8 encoded
strings codepoint order coincides with Go's byte-wise string order, so this
is the order used by `sort.Strings`. -/
def charListLe : List Char → List Char → Bool
  | [], _ => true
  | _ :: _, [] => false
  | a :: as, b :: bs =>
    if a.toNat < b.toNat then true
    else if b.toNat < a.toNat then false
    else charListLe as bs

/-- Strict version of `charListLe`. -/
def charListLt : List Char → List Char → Bool
  | _, [] => false
  | [], _ :: _ => true
  | a :: as, b :: bs =>
    if a.toNat < b.toNat then true
    else if b.toNat < a.toNat then false
    else charListLt as bs

/-- Byte/codepoint-lexicographic order on strings, as a relation. -/
def strLe (a b : String) : Prop := charListLe a.data b.data = true

instance : DecidableRel strLe := fun a b => instDecidableEqBool (charListLe a.data b.data) true

/-- Go `sort.Strings`: byte-lexicographic ascending sort. -/
def sortStrings (l : List String) : List String :=
  List.insertionSort strLe l

/-- Go `ReadAllInputSources`: loads every source, collects the distinct keys
across all sources and sorts them.  The intermediate Go `keyMap` is a set
whose enumeration order is canonicalized by the sort; embedded as `dedup`
followed by `sortStrings`. -/
def ReadAllInputSources (allHeaders : List (List String))
    (allRows : List (List (List String))) (joinColumns : List String) :
    List String × List DataCollection :=
  let allData := (allHeaders.zip allRows).map (fun p => ReadData p.1 joinColumns p.2)
  let keys := (allData.flatMap (fun dc => dc.data.map Prod.fst)).dedup
  (sortStrings keys, allData)

/-- Go `IdentifyJoinColumns`' `headerCounts` map: every occurrence of the
name in every header increments the count, so duplicates inside one header
are counted individually. -/
def countAcross (allHeaders : List (List String)) (c : String) : Nat :=
  (allHeaders.map (fun h => h.count c)).sum

/-- Characterizes every join-column list the Go loop
`for col, count := range headerCounts` can produce: Go map iteration order
is unspecified, so any duplicate-free enumeration of the names whose count
equals the number of sources is a possible result. -/
def validJoinOrder (allHeaders : List (List String)) (order : List String) : Prop :=
  order.Nodup ∧
    ∀ c, c ∈ order ↔
      (0 < countAcross allHeaders c ∧ countAcross allHeaders c = allHeaders.length)

/-- Go `(u *UniqueSlice).Append`: adds the string only if not already
present. -/
def uniqueAppend (acc : List String) (s : String) : List String :=
  if s ∈ acc then acc else acc ++ [s]

/-- Go `IdentifyOutputColumns`: the distinct column names across all headers
in first-seen order, via `UniqueSlice`. -/
def IdentifyOutputColumns (allHeaders : List (List String)) : List String :=
  allHeaders.foldl (fun acc h => h.foldl uniqueAppend acc) []

/-- Go `IdentifyJoinColumns`, with the nondeterministic map enumeration fixed
to the canonical first-seen order (one of the enumerations admitted by
`validJoinOrder`). -/
def IdentifyJoinColumns (allHeaders : List (List String)) : List String :=
  (IdentifyOutputColumns allHeaders).filter
    (fun c => countAcross allHeaders c == allHeaders.length)

/-- Go `recurse`: emits (through the prt callback, here collected into a
list) every combination of records for the key, source by source; a source
with no records for the key is skipped over. -/
def recurse (key : String) (recs : List Record) (remain : List DataCollection) :
    List (List Record) :=
  match remain with
  | [] => [recs]
  | dc :: rest =>
    if (dc.get key).isEmpty then recurse key recs rest
    else (dc.get key).flatMap (fun rec => recurse key (recs ++ [rec]) rest)

/-- The per-column scan inside Go `WriteCSVs`' prt closure: the value of the
first record that defines the column, `""` if none does. -/
def firstVal (recs : List Record) (col : String) : String :=
  match recs with
  | [] => ""
  | rec :: rest =>
    match rec.lookup col with
    | some v => v
    | none => firstVal rest col

/-- The prt closure in Go `WriteCSVs`: builds one output row, one cell per
output column. -/
def prt (outputColumns : List String) (recs : List Record) : List String :=
  outputColumns.map (fun col => firstVal recs col)

/-- Go `WriteCSVs`: the data rows written for one key, in emission order. -/
def WriteCSVs (key : String) (outputColumns : List String)
    (allData : List DataCollection) : List (List String) :=
  (recurse key [] allData).map (prt outputColumns)

/-- The output phase of Go `main`: the header row followed by the data rows
of every key in sorted key order.  The output is modeled as the list of CSV
rows handed to the csv.Writer, which serializes them deterministically. -/
def programOutput (allHeaders : List (List String))
    (allRows : List (List (List String))) (joinColumns : List String) :
    List (List String) :=
  let outputColumns := IdentifyOutputColumns allHeaders
  let res := ReadAllInputSources allHeaders allRows joinColumns
  outputColumns :: res.1.flatMap (fun key => WriteCSVs key outputColumns res.2)

/-- One result of a `csv.Reader.Read` call.  The CSV parser is an external
collaborator; an input source is the sequence of results its reader
yields. -/
inductive ReadResult where
  | eof
  | parseError
  | row (fields : List String)
deriving DecidableEq

/-- The first read of a source (an empty stream yields io.EOF). -/
def readFirst : List ReadResult → ReadResult
  | [] => .eof
  | r :: _ => r

/-- Go `GatherAllHeaders`: reads the first line of each source.  Faithful to
the source: only `err == io.EOF` is checked (log.Fatalf, modeled as the
error case); any other read error is ignored and the nil header (here `[]`)
is appended. -/
def GatherAllHeaders : List (List ReadResult) → Except Unit (List (List String))
  | [] => .ok []
  | src :: rest =>
    match readFirst src with
    | .eof => .error ()
    | .parseError => (GatherAllHeaders rest).map (fun hs => [] :: hs)
    | .row fields => (GatherAllHeaders rest).map (fun hs => fields :: hs)

/-- The read loop of Go `ReadData`: io.EOF ends the loop, any other error is
fatal (log.Fatalf, modeled as the error case), otherwise the row is
collected. -/
def readRows : List ReadResult → Except Unit (List (List String))
  | [] => .ok []
  | .eof :: _ => .ok []
  | .parseError :: _ => .error ()
  | .row fields :: rest => (readRows rest).map (fun rs => fields :: rs)

/-- Separator-joined char lists: the character-level shape of `keyOf`, whose
separator `"++"` is the two characters `'+'`, `'+'`. -/
def sepJoin : List (List Char) → List Char
  | [] => []
  | v :: vs => v ++ vs.flatMap (fun w => '+' :: '+' :: w)

/-- Modelled from the spec (§4.4 Join Expander): the nested cross product,
first list outermost, later lists varying fastest, elements in list order. -/
def crossProduct : List (List Record) → List (List Record)
  | [] => [[]]
  | l :: ls => l.flatMap (fun r => (crossProduct ls).map (fun c => r :: c))

/-- Modelled from the spec (§3 Output Column List): each distinct name
exactly once, in first-seen order. -/
def specOutputColumns : List String → List String
  | [] => []
  | c :: rest => c :: (specOutputColumns rest).filter (fun x => decide (x ≠ c))

/-! ## Supporting lemmas -/

theorem recurse_length (key : String) (remain : List DataCollection) :
    ∀ recs, (recurse key recs remain).length =
      (remain.map (fun dc => max (dc.get key).length 1)).prod := by
  induction remain with
  | nil => intro recs; simp [recurse]
  | cons dc rest ih =>
    intro recs
    by_cases h : (dc.get key).isEmpty = true
    · have h0 : dc.get key = [] := List.isEmpty_iff.mp h
      simp [recurse, h, ih, h0]
    · have h0 : dc.get key ≠ [] := fun he => h (by simp [he])
      have h1 : (dc.get key).length ≠ 0 := fun he => h0 (List.length_eq_zero.mp he)
      have h2 : max (dc.get key).length 1 = (dc.get key).length := by omega
      simp only [recurse, h, if_false, Bool.false_eq_true, List.length_flatMap,
        List.map_cons, List.prod_cons, h2]
      have h3 : List.map (List.length ∘ fun rec => recurse key (recs ++ [rec]) rest)
          (dc.get key) =
          List.map (fun _ => (rest.map (fun d => max (d.get key).length 1)).prod)
          (dc.get key) := by
        apply List.map_congr_left
        intro a _
        simp [ih]
      rw [h3, List.map_const', List.sum_replicate, smul_eq_mul]

theorem firstVal_eq_find (recs : List Record) (col : String) :
    firstVal recs col =
      ((recs.find? (fun r => (r.lookup col).isSome)).bind (fun r => r.lookup col)).getD "" := by
  induction recs with
  | nil => simp [firstVal]
  | cons rec rest ih =>
    cases h : rec.lookup col with
    | some v => simp [firstVal, h, List.find?_cons]
    | none => simp [firstVal, h, List.find?_cons, ih]

theorem recurse_eq_crossProduct_aux (key : String) (remain : List DataCollection) :
    ∀ recs, recurse key recs remain =
      (crossProduct ((remain.map (fun dc => dc.get key)).filter
        (fun l => !l.isEmpty))).map (fun c => recs ++ c) := by
  induction remain with
  | nil => intro recs; simp [recurse, crossProduct]
  | cons dc rest ih =>
    intro recs
    by_cases h : (dc.get key).isEmpty = true
    · simp [recurse, h, ih]
    · have hb : (dc.get key).isEmpty = false := by
        cases hx : (dc.get key).isEmpty
        · rfl
        · exact absurd hx h
      simp only [recurse, h, if_false, List.map_cons, List.filter_cons, hb,
        Bool.not_false, if_true, crossProduct, Bool.false_eq_true]
      rw [List.map_flatMap]
      have hfun : (fun rec => recurse key (recs ++ [rec]) rest) =
          (fun r => ((crossProduct ((rest.map (fun d => d.get key)).filter
            (fun l => !l.isEmpty))).map (fun c => r :: c)).map (fun c => recs ++ c)) := by
        funext r
        rw [ih (recs ++ [r]), List.map_map]
        apply List.map_congr_left
        intro c _
        simp
      rw [hfun]

theorem lookup_addEntry (l : List (String × List Record)) (key key2 : String) (rec : Record) :
    (addEntry l key rec).lookup key2 =
      if key2 = key then some (((l.lookup key).getD []) ++ [rec]) else l.lookup key2 := by
  induction l with
  | nil =>
    by_cases h : key2 = key
    · simp [addEntry, List.lookup_cons, h]
    · simp [addEntry, List.lookup_cons, h, beq_eq_false_iff_ne.mpr h]
  | cons p rest ih =>
    obtain ⟨k, rs⟩ := p
    by_cases hk : k = key
    · subst hk
      by_cases h2 : key2 = k
      · simp [addEntry, List.lookup_cons, h2]
      · simp [addEntry, List.lookup_cons, h2, beq_eq_false_iff_ne.mpr h2]
    · by_cases h2 : key2 = k
      · subst h2
        have hne : ¬ key2 = key := hk
        simp [addEntry, hk, List.lookup_cons, hne]
      · have hkk : (key == k) = false := beq_eq_false_iff_ne.mpr (fun he => hk he.symm)
        simp [addEntry, hk, List.lookup_cons, h2, ih, beq_eq_false_iff_ne.mpr h2, hkk]

theorem get_add (dc : DataCollection) (key key2 : String) (rec : Record) :
    (dc.add key rec).get key2 =
      if key2 = key then dc.get key2 ++ [rec] else dc.get key2 := by
  unfold DataCollection.add DataCollection.get
  rw [lookup_addEntry]
  by_cases h : key2 = key <;> simp [h]

theorem get_foldl_add (headers jo : List String) (rows : List (List String)) :
    ∀ (dc : DataCollection) (key : String),
      ((rows.foldl (fun d row =>
          d.add (keyOf jo (recordOf headers row)) (recordOf headers row)) dc).get key) =
        dc.get key ++ (rows.map (recordOf headers)).filter (fun r => keyOf jo r == key) := by
  induction rows with
  | nil => intro dc key; simp
  | cons row rows ih =>
    intro dc key
    simp only [List.foldl_cons, List.map_cons, List.filter_cons]
    rw [ih, get_add]
    by_cases h : key = keyOf jo (recordOf headers row)
    · have hb : (keyOf jo (recordOf headers row) == key) = true := by
        simp [h.symm]
      simp [h, hb]
    · have hb : (keyOf jo (recordOf headers row) == key) = false := by
        simp
        exact fun he => h he.symm
      simp [h, hb]

theorem get_ReadData (headers jo : List String) (rows : List (List String)) (key : String) :
    (ReadData headers jo rows).get key =
      (rows.map (recordOf headers)).filter (fun r => keyOf jo r == key) := by
  unfold ReadData
  rw [get_foldl_add]
  simp [NewDataCollection, DataCollection.get]

/-! ## Claim theorems on the join expander and row projector -/

/-- Claim C3: for every join key, if source i holds n_i ≥ 0 records for that
key, the number of data rows emitted for that key equals the product over
all sources of max(n_i, 1); a source with zero records contributes factor 1
and never causes the key's rows to be skipped. -/
theorem claim_C3_rows_per_key (key : String) (outputColumns : List String)
    (allData : List DataCollection) :
    (WriteCSVs key outputColumns allData).length =
      (allData.map (fun dc => max (dc.get key).length 1)).prod := by
  unfold WriteCSVs
  rw [List.length_map]
  exact recurse_length key allData []

/-- Claim C5: for every combination of records and every output column, the
emitted cell is the value of the first record in the combination (in
combination order) that defines that column, and the empty string when no
record in the combination defines it. -/
theorem claim_C5_first_defined_wins (outputColumns : List String) (recs : List Record) :
    prt outputColumns recs = outputColumns.map (fun col =>
      ((recs.find? (fun r => (r.lookup col).isSome)).bind
        (fun r => r.lookup col)).getD "") := by
  unfold prt
  apply List.map_congr_left
  intro col _
  exact firstVal_eq_find recs col

/-- Claim C8: for every join key the combinations are produced in nested
order source-by-source in source order (first source outermost, later
sources varying fastest, which is the order of `crossProduct`), and each
source's records for the key are taken in input row order (grouping by
`ReadData` preserves the order of the rows). -/
theorem claim_C8_combination_order :
    (∀ (key : String) (allData : List DataCollection),
      recurse key [] allData =
        crossProduct ((allData.map (fun dc => dc.get key)).filter (fun l => !l.isEmpty))) ∧
    (∀ (headers jo : List String) (rows : List (List String)) (key : String),
      (ReadData headers jo rows).get key =
        (rows.map (recordOf headers)).filter (fun r => keyOf jo r == key)) := by
  constructor
  · intro key allData
    rw [recurse_eq_crossProduct_aux]
    simp
  · exact get_ReadData

/-- Claim C10: every row of the output (the header row and every data row,
including rows from the empty combination) has exactly as many fields as
the output column list. -/
theorem claim_C10_uniform_row_width (allHeaders : List (List String))
    (allRows : List (List (List String))) (joinColumns : List String) (row : List String)
    (h : row ∈ programOutput allHeaders allRows joinColumns) :
    row.length = (IdentifyOutputColumns allHeaders).length := by
  simp only [programOutput] at h
  rcases List.mem_cons.mp h with h1 | h1
  · rw [h1]
  · rcases List.mem_flatMap.mp h1 with ⟨key, _, hrow⟩
    rcases List.mem_map.mp hrow with ⟨recs, _, hr⟩
    rw [← hr]
    simp [prt]

theorem claim_C10_witness :
    (["a"] ∈ programOutput [["a"], ["a"]] [[], []] ["a"]) ∧
      (["a"] : List String).length = (IdentifyOutputColumns [["a"], ["a"]]).length :=
  ⟨by decide, claim_C10_uniform_row_width [["a"], ["a"]] [[], []] ["a"] ["a"] (by decide)⟩

/-! ## The byte/codepoint-lexicographic order -/

theorem char_toNat_inj {a b : Char} (h : a.toNat = b.toNat) : a = b := by
  apply Char.eq_of_val_eq
  unfold Char.toNat at h
  exact UInt32.eq_of_val_eq (Fin.ext h)

theorem charListLe_total : ∀ as bs, charListLe as bs = true ∨ charListLe bs as = true := by
  intro as
  induction as with
  | nil => intro bs; left; simp [charListLe]
  | cons a as ih =>
    intro bs
    cases bs with
    | nil => right; simp [charListLe]
    | cons b bs' =>
      by_cases h1 : a.toNat < b.toNat
      · left; simp [charListLe, h1]
      · by_cases h2 : b.toNat < a.toNat
        · right; simp [charListLe, h2]
        · rcases ih bs' with h | h
          · left; simp [charListLe, h1, h2, h]
          · right; simp [charListLe, h1, h2, h]

theorem charListLe_trans :
    ∀ as bs cs, charListLe as bs = true → charListLe bs cs = true →
      charListLe as cs = true := by
  intro as
  induction as with
  | nil => intro bs cs _ _; simp [charListLe]
  | cons a as ih =>
    intro bs cs h1 h2
    cases bs with
    | nil => simp [charListLe] at h1
    | cons b bs' =>
      cases cs with
      | nil => simp [charListLe] at h2
      | cons c cs' =>
        simp only [charListLe] at h1 h2 ⊢
        split_ifs at h1 h2 ⊢ <;>
          first
          | rfl
          | omega
          | exact h1
          | exact h2
          | exact ih bs' cs' h1 h2

theorem charListLt_of_le_of_ne :
    ∀ as bs, charListLe as bs = true → as ≠ bs → charListLt as bs = true := by
  intro as
  induction as with
  | nil =>
    intro bs _ hne
    cases bs with
    | nil => exact absurd rfl hne
    | cons b bs' => simp [charListLt]
  | cons a as ih =>
    intro bs h hne
    cases bs with
    | nil => simp [charListLe] at h
    | cons b bs' =>
      simp only [charListLe] at h
      simp only [charListLt]
      by_cases h1 : a.toNat < b.toNat
      · simp [h1]
      · by_cases h2 : b.toNat < a.toNat
        · rw [if_neg h1, if_pos h2] at h
          exact absurd h (by simp)
        · rw [if_neg h1, if_neg h2] at h ⊢
          have hab : a = b := char_toNat_inj (by omega)
          subst hab
          have hne2 : as ≠ bs' := fun he => hne (by rw [he])
          exact ih bs' h hne2

instance : IsTotal String strLe := ⟨fun a b => charListLe_total a.data b.data⟩

instance : IsTrans String strLe :=
  ⟨fun a b c hab hbc => charListLe_trans a.data b.data c.data hab hbc⟩

theorem lookup_isSome_iff {β : Type} (l : List (String × β)) (k : String) :
    (l.lookup k).isSome = true ↔ k ∈ l.map Prod.fst := by
  induction l with
  | nil => simp
  | cons p rest ih =>
    obtain ⟨k2, v⟩ := p
    by_cases h : k = k2
    · simp [List.lookup_cons, h]
    · simp [List.lookup_cons, beq_eq_false_iff_ne.mpr h, h, ih]

/-- Claim C7: the key universe returned after loading all sources is
strictly sorted in byte/codepoint-lexicographic ascending order (hence has
no duplicates), and as a set equals the union of the keys present in the
sources' keyed collections. -/
theorem claim_C7_key_universe (allHeaders : List (List String))
    (allRows : List (List (List String))) (joinColumns : List String) :
    ((ReadAllInputSources allHeaders allRows joinColumns).1.Pairwise
      (fun a b => charListLt a.data b.data = true)) ∧
    (∀ k, k ∈ (ReadAllInputSources allHeaders allRows joinColumns).1 ↔
      ∃ dc ∈ (ReadAllInputSources allHeaders allRows joinColumns).2,
        (dc.data.lookup k).isSome = true) := by
  constructor
  · simp only [ReadAllInputSources, sortStrings]
    have hs : List.Sorted strLe (List.insertionSort strLe
        ((((allHeaders.zip allRows).map (fun p => ReadData p.1 joinColumns p.2)).flatMap
          (fun dc => dc.data.map Prod.fst)).dedup)) :=
      List.sorted_insertionSort strLe _
    have hnd : (List.insertionSort strLe
        ((((allHeaders.zip allRows).map (fun p => ReadData p.1 joinColumns p.2)).flatMap
          (fun dc => dc.data.map Prod.fst)).dedup)).Nodup :=
      ((List.perm_insertionSort strLe _).nodup_iff).mpr (List.nodup_dedup _)
    exact (hs.and hnd).imp (fun hx =>
      charListLt_of_le_of_ne _ _ hx.1 (fun hd => hx.2 (String.ext hd)))
  · intro k
    simp only [ReadAllInputSources, sortStrings]
    rw [List.mem_insertionSort, List.mem_dedup, List.mem_flatMap]
    constructor
    · rintro ⟨dc, hdc, hk⟩
      exact ⟨dc, hdc, (lookup_isSome_iff _ _).mpr hk⟩
    · rintro ⟨dc, hdc, hk⟩
      exact ⟨dc, hdc, (lookup_isSome_iff _ _).mp hk⟩

/-! ## Output column list -/

theorem foldl_uniqueAppend (l : List String) :
    ∀ acc, l.foldl uniqueAppend acc =
      acc ++ (specOutputColumns l).filter (fun x => decide (x ∉ acc)) := by
  induction l with
  | nil => intro acc; simp [specOutputColumns]
  | cons c rest ih =>
    intro acc
    by_cases hc : c ∈ acc
    · rw [List.foldl_cons]
      have hu : uniqueAppend acc c = acc := if_pos hc
      rw [hu, ih acc]
      simp only [specOutputColumns, List.filter_cons]
      have hdc : decide (c ∉ acc) = false := by simp [hc]
      rw [hdc]
      simp only [Bool.false_eq_true, if_false, List.filter_filter]
      congr 1
      apply List.filter_congr
      intro x _
      by_cases hx : x ∈ acc
      · simp [hx]
      · have hxc : x ≠ c := fun he => hx (he ▸ hc)
        simp [hx, hxc]
    · rw [List.foldl_cons]
      have hu : uniqueAppend acc c = acc ++ [c] := if_neg hc
      rw [hu, ih (acc ++ [c])]
      simp only [specOutputColumns, List.filter_cons]
      have hdc : decide (c ∉ acc) = true := by simp [hc]
      rw [hdc]
      simp only [if_true, List.filter_filter, List.append_assoc, List.singleton_append]
      congr 2
      apply List.filter_congr
      intro x _
      by_cases hx : x ∈ acc
      · simp [hx]
      · by_cases hxc : x = c
        · simp [hxc]
        · simp [hx, hxc]

theorem identifyOutputColumns_eq_spec (allHeaders : List (List String)) :
    IdentifyOutputColumns allHeaders = specOutputColumns allHeaders.flatten := by
  unfold IdentifyOutputColumns
  rw [← List.foldl_flatten, foldl_uniqueAppend _ []]
  simp

theorem mem_specOutputColumns (l : List String) (x : String) :
    x ∈ specOutputColumns l ↔ x ∈ l := by
  induction l with
  | nil => simp [specOutputColumns]
  | cons c rest ih =>
    simp only [specOutputColumns, List.mem_cons, List.mem_filter, ih, decide_eq_true_eq]
    by_cases hx : x = c
    · simp [hx]
    · simp [hx]

theorem nodup_specOutputColumns (l : List String) : (specOutputColumns l).Nodup := by
  induction l with
  | nil => simp [specOutputColumns]
  | cons c rest ih =>
    simp only [specOutputColumns]
    refine List.nodup_cons.mpr ⟨?_, ih.filter _⟩
    intro hmem
    have := (List.mem_filter.mp hmem).2
    simp at this

/-- Claim C6 (amended): the output column list contains each distinct column
name appearing in any header exactly once, in first-seen order across the
headers, and its length is at least the number of distinct names in every
single source's header.  (The original bound against the raw header length
fails when a header repeats a name, see the counterexample.) -/
theorem claim_C6_output_columns (allHeaders : List (List String)) :
    (IdentifyOutputColumns allHeaders).Nodup ∧
    IdentifyOutputColumns allHeaders = specOutputColumns allHeaders.flatten ∧
    (∀ c, c ∈ IdentifyOutputColumns allHeaders ↔ c ∈ allHeaders.flatten) ∧
    (∀ h ∈ allHeaders, h.dedup.length ≤ (IdentifyOutputColumns allHeaders).length) := by
  have hspec := identifyOutputColumns_eq_spec allHeaders
  have hnd : (IdentifyOutputColumns allHeaders).Nodup := by
    rw [hspec]; exact nodup_specOutputColumns _
  have hmem : ∀ c, c ∈ IdentifyOutputColumns allHeaders ↔ c ∈ allHeaders.flatten := by
    intro c; rw [hspec]; exact mem_specOutputColumns _ c
  refine ⟨hnd, hspec, hmem, ?_⟩
  intro h hh
  have hsub : h.dedup.toFinset ⊆ (IdentifyOutputColumns allHeaders).toFinset := by
    intro x hx
    rw [List.mem_toFinset] at hx ⊢
    rw [hmem x, List.mem_flatten]
    exact ⟨h, hh, List.mem_dedup.mp hx⟩
  calc h.dedup.length = h.dedup.toFinset.card :=
        (List.toFinset_card_of_nodup (List.nodup_dedup h)).symm
    _ ≤ (IdentifyOutputColumns allHeaders).toFinset.card := Finset.card_le_card hsub
    _ = (IdentifyOutputColumns allHeaders).length := List.toFinset_card_of_nodup hnd

theorem claim_C6_witness :
    (["a"] ∈ [["a"], ["b"]]) ∧
      (["a"] : List String).dedup.length ≤ (IdentifyOutputColumns [["a"], ["b"]]).length :=
  ⟨by decide, (claim_C6_output_columns [["a"], ["b"]]).2.2.2 ["a"] (by decide)⟩

/-- Claim C6, counterexample to the original length bound: the header
`["a","a"]` has length 2, but the output column list for the sources
`["a","a"]` and `["a"]` is `["a"]` of length 1. -/
theorem claim_C6_counterexample :
    (["a", "a"] ∈ [["a", "a"], ["a"]]) ∧
      ¬ ((["a", "a"] : List String).length ≤
        (IdentifyOutputColumns [["a", "a"], ["a"]]).length) := by
  decide

/-! ## Key derivation -/

theorem intercalate_go_data (s : String) :
    ∀ (as : List String) (acc : String),
      (String.intercalate.go acc s as).data =
        acc.data ++ as.flatMap (fun a => s.data ++ a.data) := by
  intro as
  induction as with
  | nil => intro acc; simp [String.intercalate.go]
  | cons a rest ih =>
    intro acc
    rw [show String.intercalate.go acc s (a :: rest) =
      String.intercalate.go (acc ++ s ++ a) s rest from rfl]
    rw [ih]
    simp [String.data_append, List.flatMap_cons]

theorem keyOf_data (joinColumns : List String) (rec : Record) :
    (keyOf joinColumns rec).data =
      sepJoin (joinColumns.map (fun c => (lookupD rec c).data)) := by
  unfold keyOf String.intercalate
  cases joinColumns with
  | nil => rfl
  | cons c cs =>
    simp only [List.map_cons, sepJoin]
    rw [intercalate_go_data]
    simp only [List.flatMap_map]
    rfl

theorem plusfree_append_inj :
    ∀ (v w t u : List Char), '+' ∉ v → '+' ∉ w →
      v ++ '+' :: t = w ++ '+' :: u → v = w ∧ t = u := by
  intro v
  induction v with
  | nil =>
    intro w t u _ hw he
    cases w with
    | nil => simpa using he
    | cons d w' =>
      simp only [List.nil_append, List.cons_append, List.cons.injEq] at he
      have hmem : '+' ∈ d :: w' := by rw [he.1]; exact List.mem_cons_self d w'
      exact absurd hmem hw
  | cons c v' ih =>
    intro w t u hv hw he
    cases w with
    | nil =>
      simp only [List.cons_append, List.nil_append, List.cons.injEq] at he
      have hmem : '+' ∈ c :: v' := by rw [← he.1]; exact List.mem_cons_self c v'
      exact absurd hmem hv
    | cons d w' =>
      simp only [List.cons_append, List.cons.injEq] at he
      obtain ⟨hcd, he2⟩ := he
      have hv' : '+' ∉ v' := fun hm => hv (List.mem_cons_of_mem c hm)
      have hw' : '+' ∉ w' := fun hm => hw (List.mem_cons_of_mem d hm)
      obtain ⟨h1, h2⟩ := ih w' t u hv' hw' he2
      exact ⟨by rw [hcd, h1], h2⟩

theorem sepJoin_inj :
    ∀ (vs ws : List (List Char)), vs.length = ws.length →
      (∀ v ∈ vs, '+' ∉ v) → (∀ w ∈ ws, '+' ∉ w) →
      sepJoin vs = sepJoin ws → vs = ws := by
  intro vs
  induction vs with
  | nil =>
    intro ws hlen _ _ _
    cases ws with
    | nil => rfl
    | cons _ _ => simp at hlen
  | cons v vs' ih =>
    intro ws hlen hv hw he
    cases ws with
    | nil => simp at hlen
    | cons w ws' =>
      cases vs' with
      | nil =>
        cases ws' with
        | nil =>
          simp only [sepJoin, List.flatMap_nil, List.append_nil] at he
          rw [he]
        | cons _ _ => simp at hlen
      | cons v2 vs'' =>
        cases ws' with
        | nil => simp at hlen
        | cons w2 ws'' =>
          have hvs : sepJoin (v :: v2 :: vs'') =
              v ++ '+' :: '+' :: sepJoin (v2 :: vs'') := by
            simp [sepJoin, List.flatMap_cons]
          have hws : sepJoin (w :: w2 :: ws'') =
              w ++ '+' :: '+' :: sepJoin (w2 :: ws'') := by
            simp [sepJoin, List.flatMap_cons]
          rw [hvs, hws] at he
          obtain ⟨h1, h2⟩ := plusfree_append_inj v w _ _
            (hv v (List.mem_cons_self v _)) (hw w (List.mem_cons_self w _)) he
          have h3 : sepJoin (v2 :: vs'') = sepJoin (w2 :: ws'') := by
            simpa using h2
          have h4 := ih (w2 :: ws'') (by simpa using hlen)
            (fun x hx => hv x (List.mem_cons_of_mem v hx))
            (fun x hx => hw x (List.mem_cons_of_mem w hx)) h3
          rw [h1, h4]

/-- Claim C1 (amended): two records produce equal join keys if they agree on
the value of every join column, and the converse holds provided no
join-column value contains the separator character `'+'`; without that
proviso key equality does not imply agreement (see the counterexample:
values `"x+","y"` and `"x","+y"` collide under the `"++"` separator). -/
theorem claim_C1_key_equality (joinColumns : List String) (r1 r2 : Record)
    (h : ∀ c ∈ joinColumns,
      '+' ∉ (lookupD r1 c).data ∧ '+' ∉ (lookupD r2 c).data) :
    keyOf joinColumns r1 = keyOf joinColumns r2 ↔
      ∀ c ∈ joinColumns, lookupD r1 c = lookupD r2 c := by
  constructor
  · intro he
    have hd : (keyOf joinColumns r1).data = (keyOf joinColumns r2).data := by rw [he]
    rw [keyOf_data, keyOf_data] at hd
    have hmaps := sepJoin_inj _ _ (by simp)
      (by rintro v hv
          obtain ⟨c, hc, rfl⟩ := List.mem_map.mp hv
          exact (h c hc).1)
      (by rintro w hw
          obtain ⟨c, hc, rfl⟩ := List.mem_map.mp hw
          exact (h c hc).2)
      hd
    intro c hc
    exact String.ext (List.map_eq_map_iff.mp hmaps c hc)
  · intro hagree
    unfold keyOf
    rw [List.map_eq_map_iff.mpr hagree]

theorem claim_C1_witness :
    (∀ c ∈ ["a"], '+' ∉ (lookupD (recordOf ["a"] ["x"]) c).data ∧
        '+' ∉ (lookupD (recordOf ["a"] ["y"]) c).data) ∧
      (keyOf ["a"] (recordOf ["a"] ["x"]) = keyOf ["a"] (recordOf ["a"] ["y"]) ↔
        ∀ c ∈ ["a"],
          lookupD (recordOf ["a"] ["x"]) c = lookupD (recordOf ["a"] ["y"]) c) :=
  ⟨by decide, claim_C1_key_equality ["a"] _ _ (by decide)⟩

/-- Claim C1, counterexample to the claim as stated: under join columns
`["a","b"]` the records `{a: "x+", b: "y"}` and `{a: "x", b: "+y"}` derive
the same key `"x+++y"` yet disagree on the value of join column `"a"`. -/
theorem claim_C1_counterexample :
    keyOf ["a", "b"] (recordOf ["a", "b"] ["x+", "y"]) =
        keyOf ["a", "b"] (recordOf ["a", "b"] ["x", "+y"]) ∧
      lookupD (recordOf ["a", "b"] ["x+", "y"]) "a" ≠
        lookupD (recordOf ["a", "b"] ["x", "+y"]) "a" := by
  constructor
  · rfl
  · decide

/-! ## Header reconciliation and the join-column count bug -/

/-- Claim C2, evaluation at the failing input: with headers `["a","a"]` and
`["b"]` the code counts the duplicate occurrences of `"a"` inside the first
header individually, reaching count 2 = number of sources, so it selects
`["a"]` as join columns and proceeds — although no column name occurs in
every source's header, so the claim's join set (duplicates within one
header counted once) is empty and the claim requires a fatal configuration
error instead. -/
theorem claim_C2_dup_header_bug :
    IdentifyJoinColumns [["a", "a"], ["b"]] = ["a"] ∧
      countAcross [["a", "a"], ["b"]] "a" = 2 ∧
      ¬ ∃ c, ∀ h ∈ [["a", "a"], ["b"]], c ∈ h := by
  refine ⟨by decide, by decide, ?_⟩
  rintro ⟨c, hc⟩
  have h1 := hc ["a", "a"] (by simp)
  have h2 := hc ["b"] (by simp)
  simp only [List.mem_cons, List.not_mem_nil, or_false, or_self] at h1 h2
  subst h1
  exact absurd h2 (by decide)

/-- Claim C9, evaluation at the failing input: a malformed header row
(parse error on the first read of source 2) is not fatal inside
`GatherAllHeaders` — the code checks only `err == io.EOF` — so header
collection succeeds with a nil header for that source, violating the
claimed immediate abort.  A missing header (EOF) and a malformed data row
are immediately fatal, and the run with the swallowed header error still
writes no output because the nil header leaves no common join column. -/
theorem claim_C9_header_parse_error_not_fatal :
    GatherAllHeaders [[.row ["a"], .eof], [.parseError]] = .ok [["a"], []] ∧
      GatherAllHeaders [[], [.parseError]] = .error () ∧
      readRows [.parseError] = .error () ∧
      IdentifyJoinColumns [["a"], []] = [] :=
  ⟨rfl, rfl, rfl, by decide⟩

/-! ## Join-column enumeration order and output determinism -/

theorem countAcross_eq_zero {allHeaders : List (List String)} {c : String}
    (h : c ∉ allHeaders.flatten) : countAcross allHeaders c = 0 := by
  unfold countAcross
  apply List.sum_eq_zero
  rintro x hx
  obtain ⟨hh, hmem, rfl⟩ := List.mem_map.mp hx
  have hnm : c ∉ hh := fun hc => h (List.mem_flatten.mpr ⟨hh, hmem, hc⟩)
  exact List.count_eq_zero.mpr hnm

theorem countAcross_pos_of_mem {allHeaders : List (List String)} {c : String}
    (h : c ∈ allHeaders.flatten) : 0 < countAcross allHeaders c := by
  obtain ⟨hh, hmem, hc⟩ := List.mem_flatten.mp h
  have h1 : 0 < hh.count c := List.count_pos_iff.mpr hc
  have h2 : hh.count c ≤ countAcross allHeaders c := by
    unfold countAcross
    exact List.single_le_sum (fun x _ => Nat.zero_le x) _
      (List.mem_map.mpr ⟨hh, hmem, rfl⟩)
  omega

theorem validJoinOrder_intro (allHeaders : List (List String)) (order : List String)
    (h1 : order.Nodup) (h3 : order ⊆ allHeaders.flatten)
    (h2 : ∀ c ∈ allHeaders.flatten,
      (c ∈ order ↔ countAcross allHeaders c = allHeaders.length)) :
    validJoinOrder allHeaders order := by
  refine ⟨h1, ?_⟩
  intro c
  by_cases hc : c ∈ allHeaders.flatten
  · rw [h2 c hc]
    have := countAcross_pos_of_mem hc
    constructor
    · intro he; exact ⟨this, he⟩
    · intro he; exact he.2
  · constructor
    · intro ho; exact absurd (h3 ho) hc
    · intro he
      rw [countAcross_eq_zero hc] at he
      omega

/-- Claim C4 (amended): the output is a deterministic function of the input
files and of the join-column enumeration order produced by the Go map
iteration in `IdentifyJoinColumns`; two runs whose iterations enumerate the
join columns in the same order — in particular whenever there is at most
one join column — produce identical output.  With two or more join columns
the enumeration order is unspecified and the output row order can differ
between runs, so byte-identical output is not guaranteed (see the
counterexample). -/
theorem claim_C4_determinism (allHeaders : List (List String))
    (allRows : List (List (List String))) (o1 o2 : List String)
    (h1 : validJoinOrder allHeaders o1) (h2 : validJoinOrder allHeaders o2)
    (hsing : ∀ c c2, c ∈ o1 → c2 ∈ o1 → c = c2) :
    programOutput allHeaders allRows o1 = programOutput allHeaders allRows o2 := by
  obtain ⟨hn1, hm1⟩ := h1
  obtain ⟨hn2, hm2⟩ := h2
  have hmem : ∀ c, c ∈ o1 ↔ c ∈ o2 := fun c => (hm1 c).trans (hm2 c).symm
  have ho : o1 = o2 := by
    cases o1 with
    | nil =>
      cases o2 with
      | nil => rfl
      | cons d t2 =>
        exact absurd ((hmem d).mpr (List.mem_cons_self d t2)) (List.not_mem_nil d)
    | cons c t1 =>
      have ht1 : t1 = [] := by
        cases t1 with
        | nil => rfl
        | cons x t1' =>
          have hx : x = c := hsing x c (by simp) (by simp)
          rw [List.nodup_cons] at hn1
          exact absurd (by rw [← hx]; simp : c ∈ x :: t1') hn1.1
      subst ht1
      cases o2 with
      | nil => exact absurd ((hmem c).mp (by simp)) (List.not_mem_nil c)
      | cons d t2 =>
        have hd : d = c := by
          have hdm : d ∈ [c] := (hmem d).mpr (by simp)
          simpa using hdm
        subst hd
        have ht2 : t2 = [] := by
          cases t2 with
          | nil => rfl
          | cons y t2' =>
            have hy : y ∈ [d] := (hmem y).mpr (by simp)
            have hyd : y = d := by simpa using hy
            rw [List.nodup_cons] at hn2
            exact absurd (by rw [← hyd]; simp : d ∈ y :: t2') hn2.1
        rw [ht2]
  rw [ho]

theorem claim_C4_witness :
    validJoinOrder [["a"], ["a"]] ["a"] ∧
      programOutput [["a"], ["a"]] [[["1"]], [["1"]]] ["a"] =
        programOutput [["a"], ["a"]] [[["1"]], [["1"]]] ["a"] := by
  have hv : validJoinOrder [["a"], ["a"]] ["a"] :=
    validJoinOrder_intro _ _ (by decide) (by decide) (by decide)
  refine ⟨hv, claim_C4_determinism [["a"], ["a"]] [[["1"]], [["1"]]] ["a"] ["a"] hv hv ?_⟩
  intro c c2 hc hc2
  simp only [List.mem_singleton] at hc hc2
  rw [hc, hc2]

/-- Claim C4, counterexample to the claim as stated: `["a","b"]` and
`["b","a"]` are both join-column enumerations the Go map iteration may
produce for the same two input files, and they yield outputs whose data
rows appear in different orders — so two runs on identical inputs need not
produce byte-identical output. -/
theorem claim_C4_counterexample :
    validJoinOrder [["a", "b"], ["a", "b"]] ["a", "b"] ∧
      validJoinOrder [["a", "b"], ["a", "b"]] ["b", "a"] ∧
      programOutput [["a", "b"], ["a", "b"]]
          [[["1", "z"], ["2", "a"]], [["1", "z"], ["2", "a"]]] ["a", "b"] ≠
        programOutput [["a", "b"], ["a", "b"]]
          [[["1", "z"], ["2", "a"]], [["1", "z"], ["2", "a"]]] ["b", "a"] := by
  refine ⟨validJoinOrder_intro _ _ (by decide) (by decide) (by decide),
    validJoinOrder_intro _ _ (by decide) (by decide) (by decide), by decide⟩

end Csvjoin
